/-
Verification of the `bitfile` Python package (bitfile.py) against its
natural-language specification.

The embedding below is a shallow translation of `src/bitfile/bitfile.py`
(a Python 2 module: `read(1)` returns the empty string at end of file,
`chr(b)` for `b` in 0..255 writes a single byte and raises `ValueError`
for larger arguments).  Python integers are modelled by `Nat`/`Int` with
explicit `% 256` where the source masks with `& 0xFF`; the underlying
binary file stream is modelled by a byte list plus a position; every
method that can raise returns `Except Err`.
-/
import Mathlib

namespace Bitfile

/-- The exception kinds the module can raise.
`valueError` covers `ValueError` (closed stream, bad open mode, `chr`
argument out of range), `ioError` covers `IOError(errno.EBADF)`,
`eofError` covers `EOFError`, `indexError` covers `IndexError` from
popping/indexing an empty bytearray, `typeError` covers `TypeError`
(an argument of the wrong dynamic type, e.g. a Python 2 `long`). -/
inductive Err where
  | valueError : Err
  | ioError : Err
  | eofError : Err
  | indexError : Err
  | typeError : Err
deriving DecidableEq, Repr

/-- State of a `BitFile` object together with its underlying binary file
stream.  `content`/`pos` model the byte stream (`_stream`), `flushCount`
counts the calls to the resource-level `_stream.flush()`.  The two
buffers mirror `_input_buffer = bytearray([bit_count, buffered_bits])`
and `_output_buffer` of the source. -/
structure BitFile where
  isOpen : Bool
  mode : List Char
  content : List Nat
  pos : Nat
  flushCount : Nat
  ibufCount : Nat
  ibufValue : Nat
  obufCount : Nat
  obufValue : Nat
deriving DecidableEq, Repr

/-- `BitFile.__init__`: no stream, empty mode, zeroed buffers. -/
def initial : BitFile :=
  { isOpen := false, mode := [], content := [], pos := 0, flushCount := 0,
    ibufCount := 0, ibufValue := 0, obufCount := 0, obufValue := 0 }

/-- `self._stream.read(1)`: the byte at `pos` (advancing), or `none` at
end of file (Python 2 returns an empty string and the position does not move). -/
def stream_read1 (f : BitFile) : Option Nat × BitFile :=
  if h : f.pos < f.content.length then
    (some (f.content.get ⟨f.pos, h⟩), { f with pos := f.pos + 1 })
  else
    (none, f)

/-- `self._stream.write(...)` of a single byte: overwrite at the current
position (extending the file when at the end) and advance. -/
def stream_write1 (f : BitFile) (b : Nat) : BitFile :=
  { f with content := f.content.take f.pos ++ [b] ++ f.content.drop (f.pos + 1),
           pos := f.pos + 1 }

/-- `self._stream.flush()`: a resource-level flush (observable only via
the counter). -/
def stream_flush (f : BitFile) : BitFile :=
  { f with flushCount := f.flushCount + 1 }

/-- `BitFile._is_readable`: stream present and `'r' in self._mode`. -/
def is_readable (f : BitFile) : Bool :=
  f.isOpen && f.mode.contains 'r'

/-- `BitFile._is_writable`: stream present and any of `'w'`, `'a'`,
`'+'` in `self._mode`. -/
def is_writable (f : BitFile) : Bool :=
  f.isOpen && (f.mode.contains 'w' || f.mode.contains 'a' || f.mode.contains '+')

/-- The CPython 2 builtin `open`: the mode string must begin with one of
`'r'`, `'w'`, `'a'`, `'U'`, otherwise `ValueError` is raised.  This is
the external collaborator (the byte resource), not repository code. -/
def python2_open_accepts (mode : List Char) : Bool :=
  match mode with
  | [] => false
  | c :: _ => c = 'r' || c = 'w' || c = 'a' || c = 'U'

/-- `BitFile.open` (named `open_file` because `open` is a Lean keyword):
rejects text modes, forces binary, opens the resource and resets both
buffers.  `existing` is the current content of the named file; `'w'`
truncates it, `'a'` positions at its end. -/
def open_file (f : BitFile) (mode : List Char) (existing : List Nat) :
    Except Err BitFile :=
  if f.isOpen then
    .error .valueError
  else if mode.contains 't' || mode.contains 'U' then
    .error .valueError
  else
    let mode1 := if mode.contains 'b' then mode else mode ++ ['b']
    if python2_open_accepts mode1 then
      .ok { isOpen := true, mode := mode1,
            content := if mode1.contains 'w' then [] else existing,
            pos := if mode1.contains 'a' then existing.length else 0,
            flushCount := 0,
            ibufCount := 0, ibufValue := 0, obufCount := 0, obufValue := 0 }
    else
      .error .valueError

/-- `BitFile.get_char`.  The leading `isOpen` test is `_verify_opened`. -/
def get_char (f : BitFile) : Except Err (Nat × BitFile) :=
  if !f.isOpen then .error .valueError
  else if !is_readable f then .error .ioError
  else
    match stream_read1 f with
    | (none, _) => .error .eofError
    | (some rv, f1) =>
      if f1.ibufCount = 0 then
        .ok (rv, f1)
      else
        let tmp := (rv >>> f1.ibufCount) ||| (f1.ibufValue <<< (8 - f1.ibufCount))
        .ok (tmp &&& 0xFF, { f1 with ibufValue := rv &&& 0xFF })

/-- `BitFile.put_char`.  Only the integer branch of the dynamic
`isinstance(c, str)` test is modelled: for an `int` argument the byte is
`c & 0xFF` (Euclidean remainder, matching the Python bitwise and on negatives). -/
def put_char (f : BitFile) (c : Int) : Except Err (Nat × BitFile) :=
  if !f.isOpen then .error .valueError
  else if !is_writable f then .error .ioError
  else
    let ba0 : Nat := (c % 256).toNat
    if f.obufCount = 0 then
      .ok (ba0, stream_write1 f ba0)
    else
      let tmp := (ba0 >>> f.obufCount) ||| ((f.obufValue <<< (8 - f.obufCount)) &&& 0xFF)
      let f1 := stream_write1 f tmp
      .ok (ba0, { f1 with obufValue := ba0 })

/-- `BitFile.get_bit`. -/
def get_bit (f : BitFile) : Except Err (Nat × BitFile) :=
  if !f.isOpen then .error .valueError
  else if !is_readable f then .error .ioError
  else
    let load : Except Err BitFile :=
      if f.ibufCount = 0 then
        match stream_read1 f with
        | (none, _) => .error .eofError
        | (some c, f1) => .ok { f1 with ibufValue := c, ibufCount := 8 }
      else .ok f
    match load with
    | .error e => .error e
    | .ok f2 =>
      let cnt := f2.ibufCount - 1
      let rv := (f2.ibufValue >>> cnt) &&& 0x01
      .ok (rv, { f2 with ibufCount := cnt })

/-- `BitFile.put_bit`.  `bit` is the Python argument; a nonzero value
counts as a one-bit (the source tests plain truthiness). -/
def put_bit (f : BitFile) (bit : Nat) : Except Err (Nat × BitFile) :=
  if !f.isOpen then .error .valueError
  else if !is_writable f then .error .ioError
  else
    let cnt := f.obufCount + 1
    let v0 := (f.obufValue <<< 1) &&& 0xFF
    let v := if bit ≠ 0 then v0 ||| 1 else v0
    let bret : Nat := if bit ≠ 0 then 1 else 0
    if cnt = 8 then
      let f1 := stream_write1 f v
      .ok (bret, { f1 with obufCount := 0, obufValue := 0 })
    else
      .ok (bret, { f with obufCount := cnt, obufValue := v })

/-- `BitFile.flush`: pad the buffered bits to a byte (`ones_fill` chooses
the padding), write it, force a resource-level flush, reset the output
buffer and return the number of valid bits; a no-op returning 0 when the
output buffer is empty. -/
def flush (f : BitFile) (ones_fill : Bool) : Except Err (Nat × BitFile) :=
  if !f.isOpen then .error .valueError
  else if !is_writable f then .error .ioError
  else if f.obufCount = 0 then .ok (0, f)
  else
    let rv := f.obufCount
    let b0 := (f.obufValue <<< (8 - f.obufCount)) &&& 0xFF
    let b1 := if ones_fill then b0 ||| (0xFF >>> f.obufCount) else b0
    let f1 := stream_flush (stream_write1 f b1)
    .ok (rv, { f1 with obufCount := 0, obufValue := 0 })

/-- `BitFile.byte_align`: returns `self._output_buffer[1]` (the buffered
byte value), writes the zero-padded byte via `self._stream.write(chr(bits))`
when writable and non-empty (no resource-level flush; `chr` raises
`ValueError` when its argument exceeds 255), and zeroes both buffers. -/
def byte_align (f : BitFile) : Except Err (Nat × BitFile) :=
  if !f.isOpen then .error .valueError
  else
    let rv := f.obufValue
    let step : Except Err BitFile :=
      if is_writable f ∧ f.obufCount ≠ 0 then
        let bits := f.obufValue <<< (8 - f.obufCount)
        if bits ≤ 0xFF then .ok (stream_write1 f bits)
        else .error .valueError
      else .ok f
    match step with
    | .error e => .error e
    | .ok f1 =>
      .ok (rv, { f1 with ibufCount := 0, ibufValue := 0,
                         obufCount := 0, obufValue := 0 })

/-- `BitFile.close`: implicit `flush(False)` when writable with buffered
bits, then release the stream and reset all state. -/
def close (f : BitFile) : Except Err BitFile :=
  if !f.isOpen then .error .valueError
  else
    let step : Except Err BitFile :=
      if is_writable f ∧ f.obufCount ≠ 0 then
        match flush f false with
        | .error e => .error e
        | .ok (_, f1) => .ok f1
      else .ok f
    match step with
    | .error e => .error e
    | .ok f1 =>
      .ok { f1 with isOpen := false, mode := [],
                    ibufCount := 0, ibufValue := 0,
                    obufCount := 0, obufValue := 0 }

/-- Python 2 distinguishes `int` (a machine word: on a 64-bit build the
range `-sys.maxint - 1 .. sys.maxint`, i.e. `-2^63 .. 2^63 - 1`) from
`long` (unbounded).  A value outside the machine range is necessarily a
`long` and fails an `isinstance(x, int)` test. -/
def is_machine_int (v : Int) : Bool :=
  !(decide (v < -(2 ^ 63)) || decide (2 ^ 63 ≤ v))

/-- `int_to_bytearray(value, length)`: big-endian bytearray of `value`,
index 0 the MSB.  The source loop sets `ba[length-i-1] = value & 0xFF`
then shifts value right by 8; the Python right shift on int is floor division. -/
def int_to_bytearray (value : Int) : Nat → List Nat
  | 0 => []
  | length + 1 => int_to_bytearray (Int.fdiv value 256) length ++ [(value % 256).toNat]

/-- The `while remaining >= 8` loop of `get_bits`: read one char per
iteration, `values.insert(0, ...)`, stop with the leftover `remaining`. -/
def get_bits_loop1 : BitFile → Nat → List Nat → Except Err (List Nat × Nat × BitFile)
  | f, remaining + 8, values =>
    match get_char f with
    | .error e => .error e
    | .ok (c, f1) => get_bits_loop1 f1 remaining (c :: values)
  | f, remaining, values => .ok (values, remaining, f)

/-- The `while remaining > 0` bit loop of `get_bits`:
`last = last << 1; if get_bit(): last |= 1`. -/
def get_bits_loop2 : BitFile → Nat → Nat → Except Err (Nat × BitFile)
  | f, last, 0 => .ok (last, f)
  | f, last, remaining + 1 =>
    let l1 := last <<< 1
    match get_bit f with
    | .error e => .error e
    | .ok (b, f1) =>
      get_bits_loop2 f1 (if b ≠ 0 then l1 ||| 0x01 else l1) remaining

/-- `BitFile.get_bits(count)`: whole bytes first (`values` collects them
front-first), then the remaining bits, then
`for v in values: return_value = (return_value << 8) + v`. -/
def get_bits (f : BitFile) (count : Nat) : Except Err (Nat × BitFile) :=
  if !f.isOpen then .error .valueError
  else if !is_readable f then .error .ioError
  else
    match get_bits_loop1 f count [] with
    | .error e => .error e
    | .ok (values, remaining, f1) =>
      if remaining ≠ 0 then
        match get_bits_loop2 f1 0 remaining with
        | .error e => .error e
        | .ok (last, f2) =>
          .ok ((last :: values).foldl (fun rv v => (rv <<< 8) + v) 0, f2)
      else
        .ok (values.foldl (fun rv v => (rv <<< 8) + v) 0, f1)

/-- The `while remaining >= 8` loop of `put_bits`:
`put_char(ba.pop())` — pop takes the LAST bytearray element (the least
significant byte); popping an empty bytearray raises `IndexError`. -/
def put_bits_loop1 : BitFile → List Nat → Nat → Except Err (BitFile × List Nat × Nat)
  | f, ba, remaining + 8 =>
    match ba.getLast? with
    | none => .error .indexError
    | some b =>
      match put_char f (b : Int) with
      | .error e => .error e
      | .ok (_, f1) => put_bits_loop1 f1 ba.dropLast remaining
  | f, ba, remaining => .ok (f, ba, remaining)

/-- The trailing-bit loop of `put_bits`:
`put_bit(tmp & 0x80); tmp <<= 1`. -/
def put_bits_loop2 : BitFile → Nat → Nat → Except Err BitFile
  | f, _, 0 => .ok f
  | f, tmp, remaining + 1 =>
    match put_bit f (tmp &&& 0x80) with
    | .error e => .error e
    | .ok (_, f1) => put_bits_loop2 f1 (tmp <<< 1) remaining

/-- `BitFile.put_bits(bits, count)`: after the open and writable checks,
`isinstance(bits, int)` rejects Python 2 `long` arguments (any value
outside the machine-int range) with `TypeError`; then decompose into
`(count+7)//8` bytes, write whole bytes by popping the bytearray from
its end, then write the low `count % 8` bits of `ba[0]` (the leading
partial byte) MSB-first; returns `count`. -/
def put_bits (f : BitFile) (bits : Int) (count : Nat) : Except Err (Nat × BitFile) :=
  if !f.isOpen then .error .valueError
  else if !is_writable f then .error .ioError
  else if !is_machine_int bits then .error .typeError
  else
    let ba := int_to_bytearray bits ((count + 7) / 8)
    match put_bits_loop1 f ba count with
    | .error e => .error e
    | .ok (f1, ba1, remaining) =>
      if remaining ≠ 0 then
        match ba1.head? with
        | none => .error .indexError
        | some t =>
          match put_bits_loop2 f1 (t <<< (8 - remaining)) remaining with
          | .error e => .error e
          | .ok f2 => .ok (count, f2)
      else .ok (count, f1)

/-- The round-trip pipeline of the multi-bit round-trip property: open a
fresh file for writing, `put_bits`, `flush(False)`, reopen the resulting
bytes for reading, `get_bits`. -/
def write_then_read (value count : Nat) : Except Err Nat :=
  match open_file initial ['w', 'b'] [] with
  | .error e => .error e
  | .ok w0 =>
    match put_bits w0 (value : Int) count with
    | .error e => .error e
    | .ok (_, w1) =>
      match flush w1 false with
      | .error e => .error e
      | .ok (_, w2) =>
        match open_file initial ['r', 'b'] w2.content with
        | .error e => .error e
        | .ok r0 =>
          match get_bits r0 count with
          | .error e => .error e
          | .ok (rv, _) => .ok rv

/-! ### Spec-side byte decompositions -/

/-- Byte `i` (least significant first) of the Python integer `v`. -/
def byteLE (v : Int) : Nat → Nat
  | 0 => (v % 256).toNat
  | i + 1 => byteLE (Int.fdiv v 256) i

/-- The low `n` bytes of the Python integer `v`, least significant first. -/
def bytesLE (v : Int) : Nat → List Nat
  | 0 => []
  | n + 1 => (v % 256).toNat :: bytesLE (Int.fdiv v 256) n

/-- The low `n` base-256 digits of a natural number, least significant
first. -/
def specBytes (v n : Nat) : List Nat :=
  (List.range n).map (fun i => v / 256 ^ i % 256)

/-- The state right after `open(name, mode="wb")` on a fresh object (the
file is truncated). -/
def fresh_w : BitFile :=
  { isOpen := true, mode := ['w', 'b'], content := [], pos := 0, flushCount := 0,
    ibufCount := 0, ibufValue := 0, obufCount := 0, obufValue := 0 }

/-- The state right after `open(name, mode="rb")` on a file holding `data`. -/
def fresh_r (data : List Nat) : BitFile :=
  { isOpen := true, mode := ['r', 'b'], content := data, pos := 0, flushCount := 0,
    ibufCount := 0, ibufValue := 0, obufCount := 0, obufValue := 0 }

/-- The reader-side state after the whole-byte loop of `get_bits` on a
freshly opened input file. -/
def mid_r (data : List Nat) (q : Nat) : BitFile :=
  { fresh_r data with pos := q }

/-- The writer state right after put_bit(0) on a freshly opened output
file: one buffered bit of value zero. -/
def wbit0 : BitFile :=
  { fresh_w with obufCount := 1, obufValue := 0 }

/-- The writer state after put_bit(1) then put_char(0xFF) on a freshly
opened output file: the output accumulator counts one valid bit but
stores the full fresh byte 0xFF (`bitfile.py` line 519 assigns the whole
byte to `_output_buffer[1]` while leaving `_output_buffer[0]` at 1). -/
def wbig : BitFile :=
  { isOpen := true, mode := ['w', 'b'], content := [0xFF], pos := 1, flushCount := 0,
    ibufCount := 0, ibufValue := 0, obufCount := 1, obufValue := 0xFF }

/-- State of a reader that has consumed one bit of the two-byte file
AB CD: one bit consumed, seven buffered bits. -/
def rd_mid : BitFile :=
  { fresh_r [0xAB, 0xCD] with pos := 1, ibufCount := 7, ibufValue := 0xAB }

lemma int_to_bytearray_eq (v : Int) :
    ∀ n, int_to_bytearray v n = (bytesLE v n).reverse := by
  intro n
  induction n generalizing v with
  | zero => rfl
  | succ n ih =>
    simp [int_to_bytearray, bytesLE, ih]

lemma bytesLE_length (v : Int) : ∀ n, (bytesLE v n).length = n := by
  intro n
  induction n generalizing v with
  | zero => rfl
  | succ n ih => simp [bytesLE, ih]

lemma bytesLE_lt (v : Int) : ∀ n, ∀ b ∈ bytesLE v n, b < 256 := by
  intro n
  induction n generalizing v with
  | zero => intro b hb; simp [bytesLE] at hb
  | succ n ih =>
    intro b hb
    simp only [bytesLE, List.mem_cons] at hb
    rcases hb with h | h
    · subst h
      have h1 : 0 ≤ v % 256 := Int.emod_nonneg v (by norm_num)
      have h2 : v % 256 < 256 := Int.emod_lt_of_pos v (by norm_num)
      omega
    · exact ih _ b h

lemma bytesLE_succ (v : Int) :
    ∀ n, bytesLE v (n + 1) = bytesLE v n ++ [byteLE v n] := by
  intro n
  induction n generalizing v with
  | zero => rfl
  | succ n ih =>
    show (v % 256).toNat :: bytesLE (Int.fdiv v 256) (n + 1) = _
    rw [ih]
    rfl

lemma byteLE_natCast (v : Nat) : ∀ i, byteLE (v : Int) i = v / 256 ^ i % 256 := by
  intro i
  induction i generalizing v with
  | zero =>
    show ((v : Int) % 256).toNat = v / 256 ^ 0 % 256
    rw [show ((256 : Int)) = ((256 : Nat) : Int) by norm_num, ← Int.natCast_mod,
      Int.toNat_natCast]
    simp
  | succ i ih =>
    show byteLE (Int.fdiv (v : Int) 256) i = _
    have h1 : Int.fdiv (v : Int) 256 = ((v / 256 : Nat) : Int) :=
      (Int.ofNat_fdiv v 256).symm
    rw [h1, ih]
    rw [Nat.div_div_eq_div_mul]
    ring_nf

lemma bytesLE_natCast (v : Nat) : ∀ n, bytesLE (v : Int) n = specBytes v n := by
  intro n
  induction n with
  | zero => rfl
  | succ n ih =>
    rw [bytesLE_succ, ih, byteLE_natCast]
    simp [specBytes, List.range_succ]

/-! ### Arithmetic bridges for the bit operations -/

lemma and255 (x : Nat) : x &&& 255 = x % 256 := by
  have h := Nat.and_pow_two_sub_one_eq_mod x 8
  norm_num at h
  exact h

lemma or_two_pow_mul_add {i b : Nat} (hb : b < 2 ^ i) (a : Nat) :
    2 ^ i * a ||| b = 2 ^ i * a + b :=
  (Nat.mul_add_lt_is_or hb a).symm

lemma or_one (a : Nat) : 2 * a ||| 1 = 2 * a + 1 := by
  have h := or_two_pow_mul_add (i := 1) (b := 1) (by norm_num) a
  norm_num at h
  exact h

/-! ### Stream and single-unit operation lemmas -/

lemma stream_read1_lt {f : BitFile} (hp : f.pos < f.content.length) :
    stream_read1 f =
      (some (f.content.get ⟨f.pos, hp⟩), { f with pos := f.pos + 1 }) := by
  unfold stream_read1
  rw [dif_pos hp]

lemma stream_read1_eof {f : BitFile} (hp : f.content.length ≤ f.pos) :
    stream_read1 f = (none, f) := by
  unfold stream_read1
  rw [dif_neg (by omega)]

lemma stream_write1_at_end {f : BitFile} (b : Nat) (h : f.pos = f.content.length) :
    stream_write1 f b = { f with content := f.content ++ [b], pos := f.pos + 1 } := by
  unfold stream_write1
  have h1 : f.content.take f.pos = f.content := by rw [h, List.take_length]
  have h2 : f.content.drop (f.pos + 1) = [] := List.drop_eq_nil_of_le (by omega)
  rw [h1, h2, List.append_assoc, List.append_nil]

lemma put_char_at_end {f : BitFile} (c : Int) (ho : f.isOpen = true)
    (hw : is_writable f = true) (hb : f.obufCount = 0) (hp : f.pos = f.content.length) :
    put_char f c =
      .ok ((c % 256).toNat,
        { f with content := f.content ++ [(c % 256).toNat], pos := f.pos + 1 }) := by
  have h1 := stream_write1_at_end (f := f) ((c % 256).toNat) hp
  simp [put_char, ho, hw, hb, h1]

lemma get_char_direct {f : BitFile} (ho : f.isOpen = true) (hr : is_readable f = true)
    (hb : f.ibufCount = 0) (hp : f.pos < f.content.length) :
    get_char f = .ok (f.content.get ⟨f.pos, hp⟩, { f with pos := f.pos + 1 }) := by
  have h1 := stream_read1_lt hp
  simp [get_char, ho, hr, hb, h1]

lemma get_char_eof {f : BitFile} (ho : f.isOpen = true) (hr : is_readable f = true)
    (hp : f.content.length ≤ f.pos) :
    get_char f = .error .eofError := by
  have h1 := stream_read1_eof hp
  simp [get_char, ho, hr, h1]

lemma get_bit_load {f : BitFile} (ho : f.isOpen = true) (hr : is_readable f = true)
    (hb : f.ibufCount = 0) (hp : f.pos < f.content.length) :
    get_bit f = .ok ((f.content.get ⟨f.pos, hp⟩ >>> 7) &&& 1,
      { f with pos := f.pos + 1, ibufCount := 7,
               ibufValue := f.content.get ⟨f.pos, hp⟩ }) := by
  have h1 := stream_read1_lt hp
  simp [get_bit, ho, hr, hb, h1]

lemma get_bit_buffered {f : BitFile} (ho : f.isOpen = true) (hr : is_readable f = true)
    (hb : f.ibufCount ≠ 0) :
    get_bit f = .ok ((f.ibufValue >>> (f.ibufCount - 1)) &&& 1,
      { f with ibufCount := f.ibufCount - 1 }) := by
  simp [get_bit, ho, hr, hb]

lemma get_bit_eof {f : BitFile} (ho : f.isOpen = true) (hr : is_readable f = true)
    (hb : f.ibufCount = 0) (hp : f.content.length ≤ f.pos) :
    get_bit f = .error .eofError := by
  have h1 := stream_read1_eof hp
  simp [get_bit, ho, hr, hb, h1]

lemma put_bit_buffered {f : BitFile} (bit : Nat) (ho : f.isOpen = true)
    (hw : is_writable f = true) (h8 : f.obufCount + 1 ≠ 8) :
    put_bit f bit =
      .ok ((if bit ≠ 0 then 1 else 0),
        { f with obufCount := f.obufCount + 1,
                 obufValue := if bit ≠ 0 then ((f.obufValue <<< 1) &&& 255) ||| 1
                              else (f.obufValue <<< 1) &&& 255 }) := by
  simp [put_bit, ho, hw, h8]

/-! ### Loop unfolding lemmas -/

lemma get_bits_loop1_base (f : BitFile) (r : Nat) (values : List Nat) (h : r < 8) :
    get_bits_loop1 f r values = .ok (values, r, f) := by
  interval_cases r <;> rfl

lemma get_bits_loop1_step (f : BitFile) (n : Nat) (values : List Nat) :
    get_bits_loop1 f (n + 8) values =
      match get_char f with
      | .error e => .error e
      | .ok (c, f1) => get_bits_loop1 f1 n (c :: values) := rfl

lemma put_bits_loop1_base (f : BitFile) (ba : List Nat) (r : Nat) (h : r < 8) :
    put_bits_loop1 f ba r = .ok (f, ba, r) := by
  interval_cases r <;> rfl

lemma put_bits_loop1_step (f : BitFile) (ba : List Nat) (n : Nat) :
    put_bits_loop1 f ba (n + 8) =
      match ba.getLast? with
      | none => .error .indexError
      | some b =>
        match put_char f (b : Int) with
        | .error e => .error e
        | .ok (_, f1) => put_bits_loop1 f1 ba.dropLast n := rfl

lemma and128 (tmp : Nat) : tmp &&& 128 = tmp / 128 % 2 * 128 := by
  have h := Nat.and_two_pow tmp 7
  rw [Nat.testBit_to_div_mod] at h
  norm_num at h
  by_cases hb : tmp / 128 % 2 = 1
  · rw [hb] at h ⊢
    simpa using h
  · have h0 : tmp / 128 % 2 = 0 := by omega
    rw [h0] at h ⊢
    simpa using h

lemma natCast_emod_256 (x : Nat) (hx : x < 256) : ((x : Int) % 256).toNat = x := by
  rw [show ((256 : Int)) = ((256 : Nat) : Int) by norm_num, ← Int.natCast_mod,
    Int.toNat_natCast, Nat.mod_eq_of_lt hx]

/-! ### The write loops from an aligned state -/

lemma put_bits_loop2_step (f : BitFile) (tmp n : Nat) :
    put_bits_loop2 f tmp (n + 1) =
      match put_bit f (tmp &&& 128) with
      | .error e => .error e
      | .ok (_, f1) => put_bits_loop2 f1 (tmp <<< 1) n := rfl

lemma put_bits_loop2_spec :
    ∀ (r : Nat) (f : BitFile) (tmp : Nat),
      f.isOpen = true → is_writable f = true →
      f.obufValue < 2 ^ f.obufCount → f.obufCount + r ≤ 7 →
      put_bits_loop2 f tmp r =
        .ok { f with obufCount := f.obufCount + r,
                     obufValue := f.obufValue * 2 ^ r + tmp / 2 ^ (8 - r) % 2 ^ r } := by
  intro r
  induction r with
  | zero =>
    intro f tmp ho hw hv h7
    have h1 : tmp / 256 % 1 = 0 := Nat.mod_one _
    simp [put_bits_loop2, h1]
  | succ r ih =>
    intro f tmp ho hw hv h7
    have h8 : f.obufCount + 1 ≠ 8 := by omega
    have hsl : f.obufValue <<< 1 = 2 * f.obufValue := by
      rw [Nat.shiftLeft_eq]; ring
    have hlt : 2 * f.obufValue < 256 := by
      have hpow : 2 ^ f.obufCount ≤ 2 ^ 6 :=
        Nat.pow_le_pow_right (by norm_num) (by omega)
      have := hv.trans_le hpow
      omega
    have hv2 : (f.obufValue <<< 1) &&& 255 = 2 * f.obufValue := by
      rw [hsl, and255, Nat.mod_eq_of_lt hlt]
    rw [put_bits_loop2_step, put_bit_buffered _ ho hw h8]
    set t7 := tmp / 128 % 2 with ht7
    have ht72 : t7 = 0 ∨ t7 = 1 := by omega
    have ht73 : t7 ≤ 1 := by omega
    have hbit : tmp &&& 128 = t7 * 128 := and128 tmp
    have hval : (if tmp &&& 128 ≠ 0 then ((f.obufValue <<< 1) &&& 255) ||| 1
                 else (f.obufValue <<< 1) &&& 255) = 2 * f.obufValue + t7 := by
      rcases ht72 with h0 | h1
      · rw [hbit, h0]; simp [hv2]
      · rw [hbit, h1]
        norm_num
        rw [hv2, or_one]
    rw [hval]
    show put_bits_loop2 _ (tmp <<< 1) r = _
    rw [ih _ (tmp <<< 1) (by simpa using ho) (by simp [is_writable] at hw ⊢; exact hw)
        (by simp; rw [pow_succ]; omega) (by simp; omega)]
    have hdiv : (tmp <<< 1) / 2 ^ (8 - r) = tmp / 2 ^ (7 - r) := by
      rw [Nat.shiftLeft_eq, pow_one, show 8 - r = (7 - r) + 1 from by omega, pow_succ]
      rw [show tmp * 2 = 2 * tmp from by ring, show 2 ^ (7 - r) * 2 = 2 * 2 ^ (7 - r) from by ring]
      exact Nat.mul_div_mul_left tmp (2 ^ (7 - r)) (by norm_num)
    have hmod : tmp / 2 ^ (7 - r) % 2 ^ (r + 1)
        = tmp / 2 ^ (7 - r) % 2 ^ r + 2 ^ r * t7 := by
      rw [Nat.mod_pow_succ]
      congr 1
      rw [Nat.div_div_eq_div_mul, ← pow_add, show 7 - r + r = 7 from by omega]
      norm_num [ht7]
    simp only [hdiv]
    have hcnt : f.obufCount + 1 + r = f.obufCount + (r + 1) := by omega
    have hval2 : (2 * f.obufValue + t7) * 2 ^ r + tmp / 2 ^ (7 - r) % 2 ^ r
        = f.obufValue * 2 ^ (r + 1) + tmp / 2 ^ (8 - (r + 1)) % 2 ^ (r + 1) := by
      rw [show 8 - (r + 1) = 7 - r from by omega, hmod]
      ring
    rw [hcnt, hval2]

lemma put_bits_loop1_spec :
    ∀ (q : Nat) (f : BitFile) (le : List Nat) (r : Nat), r < 8 →
      f.isOpen = true → is_writable f = true → f.obufCount = 0 →
      f.pos = f.content.length →
      q ≤ le.length → (∀ b ∈ le, b < 256) →
      put_bits_loop1 f le.reverse (8 * q + r) =
        .ok ({ f with content := f.content ++ le.take q, pos := f.pos + q },
             (le.drop q).reverse, r) := by
  intro q
  induction q with
  | zero =>
    intro f le r hr ho hw hb hp hq hlt
    rw [put_bits_loop1_base _ _ _ (by omega)]
    simp
  | succ q ih =>
    intro f le r hr ho hw hb hp hq hlt
    match le with
    | [] => simp at hq
    | x :: xs =>
      have hx : x < 256 := hlt x (by simp)
      have hxs : ∀ b ∈ xs, b < 256 := fun b hbm => hlt b (by simp [hbm])
      rw [show 8 * (q + 1) + r = (8 * q + r) + 8 from by ring]
      rw [show (x :: xs).reverse = xs.reverse ++ [x] from by simp]
      have hpc := put_char_at_end (f := f) (x : Int) ho hw hb hp
      rw [natCast_emod_256 x hx] at hpc
      simp only [put_bits_loop1_step, List.getLast?_concat, List.dropLast_concat, hpc]
      have ihx := ih { f with content := f.content ++ [x], pos := f.pos + 1 } xs r hr
        (by simpa using ho) (by simp [is_writable] at hw ⊢; exact hw)
        (by simpa using hb) (by simp [hp]) (by simpa using hq) hxs
      rw [ihx]
      have hcontent : (f.content ++ [x]) ++ xs.take q = f.content ++ (x :: xs).take (q + 1) := by
        rw [List.take_succ_cons, List.append_assoc, List.singleton_append]
      have hpos : f.pos + 1 + q = f.pos + (q + 1) := by omega
      simp only [hcontent, hpos, List.drop_succ_cons]

lemma is_machine_int_natCast (v : Nat) (h : v < 2 ^ 63) :
    is_machine_int (v : Int) = true := by
  have h1 : ¬((v : Int) < -(2 ^ 63)) := by
    push_neg
    exact le_trans (by norm_num) (Int.natCast_nonneg v)
  have h2 : ¬((2 ^ 63 : Int) ≤ (v : Int)) := by
    push_neg
    exact_mod_cast h
  rw [is_machine_int, decide_eq_false h1, decide_eq_false h2]
  rfl

lemma is_machine_int_natCast_big (v : Nat) (h : 2 ^ 63 ≤ v) :
    is_machine_int (v : Int) = false := by
  have h2 : ((2 ^ 63 : Int) ≤ (v : Int)) := by
    exact_mod_cast h
  rw [is_machine_int, decide_eq_true h2, Bool.or_true, Bool.not_true]

/-- `put_bits` from a byte-aligned writable state appends the low
`count / 8` bytes of `bits` to the stream, least significant byte first,
and leaves the low `count % 8` bits of the leading partial byte (MSB
first) in the output accumulator; the value must be a machine int (a
`long` fails the isinstance test). -/
lemma put_bits_spec (f : BitFile) (v : Int) (count : Nat)
    (hm : is_machine_int v = true)
    (ho : f.isOpen = true) (hw : is_writable f = true)
    (hc : f.obufCount = 0) (hv0 : f.obufValue = 0)
    (hp : f.pos = f.content.length) :
    put_bits f v count =
      .ok (count,
        { f with content := f.content ++ bytesLE v (count / 8),
                 pos := f.pos + count / 8,
                 obufCount := count % 8,
                 obufValue := byteLE v (count / 8) % 2 ^ (count % 8) }) := by
  obtain ⟨q, r, hqr, hr⟩ : ∃ q r, count = 8 * q + r ∧ r < 8 :=
    ⟨count / 8, count % 8, by omega, by omega⟩
  subst hqr
  have hq8 : (8 * q + r) / 8 = q := by omega
  have hm8 : (8 * q + r) % 8 = r := by omega
  have hlen : (bytesLE v q).length = q := bytesLE_length v q
  by_cases hr0 : r = 0
  · subst hr0
    have hL : (8 * q + 0 + 7) / 8 = q := by omega
    have hloop := put_bits_loop1_spec q f (bytesLE v q) 0 (by norm_num) ho hw hc hp
      (by omega) (bytesLE_lt v q)
    have htake : (bytesLE v q).take q = bytesLE v q := List.take_of_length_le (by omega)
    have hdrop : (bytesLE v q).drop q = [] := List.drop_eq_nil_of_le (by omega)
    rw [htake, hdrop] at hloop
    simp only [put_bits, ho, hw, hm, Bool.not_true, Bool.false_eq_true, if_false, hL,
      int_to_bytearray_eq, hloop, hq8, hm8, hc, hv0, pow_zero, Nat.mod_one]
    simp
  · have hL : (8 * q + r + 7) / 8 = q + 1 := by omega
    have hchain := bytesLE_succ v q
    have hlt : ∀ b ∈ bytesLE v q ++ [byteLE v q], b < 256 := by
      rw [← hchain]
      exact bytesLE_lt v (q + 1)
    have hloop := put_bits_loop1_spec q f (bytesLE v q ++ [byteLE v q]) r hr ho hw hc hp
      (by simp [hlen]) hlt
    have htake : (bytesLE v q ++ [byteLE v q]).take q = bytesLE v q :=
      List.take_left' hlen
    have hdrop : (bytesLE v q ++ [byteLE v q]).drop q = [byteLE v q] :=
      List.drop_left' hlen
    rw [htake, hdrop] at hloop
    have hloop2 := put_bits_loop2_spec r
      { f with content := f.content ++ bytesLE v q, pos := f.pos + q,
               obufCount := 0, obufValue := 0 }
      (byteLE v q <<< (8 - r))
      (by simpa using ho) (by simpa [is_writable] using hw)
      (by simp) (by simp; omega)
    have hdivt : byteLE v q <<< (8 - r) / 2 ^ (8 - r) = byteLE v q := by
      rw [Nat.shiftLeft_eq]
      exact Nat.mul_div_cancel _ (Nat.pos_pow_of_pos _ (by norm_num))
    rw [hdivt] at hloop2
    simp only [ho] at hloop2
    simp only [put_bits, ho, hw, hm, Bool.not_true, Bool.false_eq_true, if_false, hL,
      int_to_bytearray_eq, hchain, hloop, hq8, hm8, hc, hv0, List.reverse_cons,
      List.head?_cons, hr0]
    simp [hloop2, hr0]

/-! ### The read loops -/

lemma get_bits_loop1_spec :
    ∀ (q : Nat) (f : BitFile) (r : Nat) (values : List Nat), r < 8 →
      f.isOpen = true → is_readable f = true → f.ibufCount = 0 →
      f.pos + q ≤ f.content.length →
      get_bits_loop1 f (8 * q + r) values =
        .ok (((f.content.drop f.pos).take q).reverse ++ values, r,
             { f with pos := f.pos + q }) := by
  intro q
  induction q with
  | zero =>
    intro f r values hr ho hrd hb hq
    rw [get_bits_loop1_base _ _ _ (by omega)]
    simp
  | succ q ih =>
    intro f r values hr ho hrd hb hq
    have hplt : f.pos < f.content.length := by omega
    rw [show 8 * (q + 1) + r = (8 * q + r) + 8 from by ring]
    have hgc := get_char_direct ho hrd hb hplt
    simp only [get_bits_loop1_step, hgc]
    have ihx := ih { f with pos := f.pos + 1 } r (f.content.get ⟨f.pos, hplt⟩ :: values) hr
      (by simpa using ho) (by simpa [is_readable] using hrd) (by simpa using hb)
      (by simp; omega)
    rw [ihx]
    have hdc : f.content.drop f.pos =
        f.content.get ⟨f.pos, hplt⟩ :: f.content.drop (f.pos + 1) := by
      rw [List.get_eq_getElem]
      exact List.drop_eq_getElem_cons hplt
    rw [hdc, List.take_succ_cons, List.reverse_cons, List.append_assoc,
      List.singleton_append, show f.pos + 1 + q = f.pos + (q + 1) from by omega]

lemma get_bits_loop2_step (f : BitFile) (last n : Nat) :
    get_bits_loop2 f last (n + 1) =
      match get_bit f with
      | .error e => .error e
      | .ok (b, f1) =>
        get_bits_loop2 f1 (if b ≠ 0 then (last <<< 1) ||| 1 else last <<< 1) n := rfl

lemma get_bits_loop2_spec :
    ∀ (r : Nat) (f : BitFile) (acc : Nat),
      f.isOpen = true → is_readable f = true →
      r ≤ f.ibufCount → f.ibufCount ≤ 8 →
      get_bits_loop2 f acc r =
        .ok (acc * 2 ^ r + f.ibufValue / 2 ^ (f.ibufCount - r) % 2 ^ r,
             { f with ibufCount := f.ibufCount - r }) := by
  intro r
  induction r with
  | zero =>
    intro f acc ho hrd hle h8
    simp [get_bits_loop2, Nat.mod_one]
  | succ r ih =>
    intro f acc ho hrd hle h8
    have hb : f.ibufCount ≠ 0 := by omega
    simp only [get_bits_loop2_step, get_bit_buffered ho hrd hb]
    have hbit : f.ibufValue >>> (f.ibufCount - 1) &&& 1
        = f.ibufValue / 2 ^ (f.ibufCount - 1) % 2 := by
      rw [Nat.shiftRight_eq_div_pow, Nat.and_one_is_mod]
    have hacc : (if f.ibufValue >>> (f.ibufCount - 1) &&& 1 ≠ 0 then (acc <<< 1) ||| 1
                 else acc <<< 1)
        = 2 * acc + f.ibufValue / 2 ^ (f.ibufCount - 1) % 2 := by
      rw [hbit, Nat.shiftLeft_eq, pow_one]
      by_cases hb2 : f.ibufValue / 2 ^ (f.ibufCount - 1) % 2 = 0
      · rw [hb2, if_neg (by omega)]
        ring
      · have hb1 : f.ibufValue / 2 ^ (f.ibufCount - 1) % 2 = 1 := by omega
        rw [hb1, if_pos (by omega), show acc * 2 = 2 * acc from by ring, or_one]
    rw [hacc]
    have ihx := ih { f with ibufCount := f.ibufCount - 1 }
      (2 * acc + f.ibufValue / 2 ^ (f.ibufCount - 1) % 2)
      (by simpa using ho) (by simpa [is_readable] using hrd)
      (by simp; omega) (by simp; omega)
    rw [ihx]
    have hz1 : f.ibufCount - 1 - r = f.ibufCount - (r + 1) := by omega
    have hmod : f.ibufValue / 2 ^ (f.ibufCount - (r + 1)) % 2 ^ (r + 1)
        = f.ibufValue / 2 ^ (f.ibufCount - (r + 1)) % 2 ^ r
          + 2 ^ r * (f.ibufValue / 2 ^ (f.ibufCount - 1) % 2) := by
      rw [Nat.mod_pow_succ, Nat.div_div_eq_div_mul, ← pow_add,
        show f.ibufCount - (r + 1) + r = f.ibufCount - 1 from by omega]
    simp only [hz1]
    have hval : (2 * acc + f.ibufValue / 2 ^ (f.ibufCount - 1) % 2) * 2 ^ r
          + f.ibufValue / 2 ^ (f.ibufCount - (r + 1)) % 2 ^ r
        = acc * 2 ^ (r + 1) + f.ibufValue / 2 ^ (f.ibufCount - (r + 1)) % 2 ^ (r + 1) := by
      rw [hmod]
      ring
    rw [hval]

/-! ### Folding the byte list back into an integer -/

lemma specBytes_length (v n : Nat) : (specBytes v n).length = n := by
  simp [specBytes]

lemma specBytes_succ (v n : Nat) :
    specBytes v (n + 1) = specBytes v n ++ [v / 256 ^ n % 256] := by
  simp [specBytes, List.range_succ]

lemma foldl_specBytes (v : Nat) :
    ∀ (q : Nat) (a : Nat),
      ((specBytes v q).reverse).foldl (fun rv x => (rv <<< 8) + x) a
        = a * 256 ^ q + v % 256 ^ q := by
  intro q
  induction q with
  | zero => intro a; simp [specBytes, Nat.mod_one]
  | succ q ih =>
    intro a
    rw [specBytes_succ, List.reverse_append, List.reverse_singleton,
      List.singleton_append, List.foldl_cons, ih]
    rw [Nat.shiftLeft_eq, show (2 : Nat) ^ 8 = 256 from by norm_num]
    rw [Nat.mod_pow_succ]
    ring

/-! ### flush -/

lemma flush_spec_empty (f : BitFile) (ones_fill : Bool) (ho : f.isOpen = true)
    (hw : is_writable f = true) (hc : f.obufCount = 0) :
    flush f ones_fill = .ok (0, f) := by
  simp [flush, ho, hw, hc]

lemma flush_spec_write (f : BitFile) (ones_fill : Bool) (ho : f.isOpen = true)
    (hw : is_writable f = true) (hc : f.obufCount ≠ 0) (hc8 : f.obufCount < 8)
    (hp : f.pos = f.content.length) :
    flush f ones_fill =
      .ok (f.obufCount,
        { f with
            content := f.content ++ [f.obufValue % 2 ^ f.obufCount * 2 ^ (8 - f.obufCount) + (if ones_fill then 2 ^ (8 - f.obufCount) - 1 else 0)],
            pos := f.pos + 1, flushCount := f.flushCount + 1,
            obufCount := 0, obufValue := 0 }) := by
  have hb0 : (f.obufValue <<< (8 - f.obufCount)) &&& 255
      = f.obufValue % 2 ^ f.obufCount * 2 ^ (8 - f.obufCount) := by
    rw [Nat.shiftLeft_eq, and255,
      show (256 : Nat) = 2 ^ f.obufCount * 2 ^ (8 - f.obufCount) from by
        rw [← pow_add, show f.obufCount + (8 - f.obufCount) = 8 from by omega]
        norm_num,
      Nat.mul_mod_mul_right]
  have h255 : (255 : Nat) >>> f.obufCount = 2 ^ (8 - f.obufCount) - 1 := by
    rw [Nat.shiftRight_eq_div_pow]
    have h1 : 1 ≤ f.obufCount := by omega
    rcases Nat.lt_or_ge f.obufCount 8 with h | h
    · interval_cases h2 : f.obufCount <;> norm_num
    · omega
  have hone : f.obufValue % 2 ^ f.obufCount * 2 ^ (8 - f.obufCount)
        ||| (2 ^ (8 - f.obufCount) - 1)
      = f.obufValue % 2 ^ f.obufCount * 2 ^ (8 - f.obufCount)
        + (2 ^ (8 - f.obufCount) - 1) := by
    rw [show f.obufValue % 2 ^ f.obufCount * 2 ^ (8 - f.obufCount)
        = 2 ^ (8 - f.obufCount) * (f.obufValue % 2 ^ f.obufCount) from by ring]
    exact or_two_pow_mul_add (Nat.sub_lt (by positivity) (by norm_num)) _
  have hsw := stream_write1_at_end (f := f)
    (f.obufValue % 2 ^ f.obufCount * 2 ^ (8 - f.obufCount)
      + (if ones_fill then 2 ^ (8 - f.obufCount) - 1 else 0)) hp
  have hb1 : (if ones_fill then
        f.obufValue % 2 ^ f.obufCount * 2 ^ (8 - f.obufCount) ||| (2 ^ (8 - f.obufCount) - 1)
      else f.obufValue % 2 ^ f.obufCount * 2 ^ (8 - f.obufCount))
      = f.obufValue % 2 ^ f.obufCount * 2 ^ (8 - f.obufCount)
        + (if ones_fill then 2 ^ (8 - f.obufCount) - 1 else 0) := by
    cases ones_fill
    · simp
    · simp [hone]
  simp only [flush, ho, hw, Bool.not_true, Bool.false_eq_true, if_false, if_neg hc,
    hb0, h255]
  rw [hb1, hsw]
  simp [stream_flush]
  exact ho

/-! ### Freshly opened streams -/



lemma open_wb : open_file initial ['w', 'b'] [] = .ok fresh_w := rfl

lemma open_rb (data : List Nat) :
    open_file initial ['r', 'b'] data = .ok (fresh_r data) := rfl

lemma get_concat_length {l : List Nat} {a : Nat} {i : Nat} (h : i = l.length)
    (w : i < (l ++ [a]).length) : (l ++ [a]).get ⟨i, w⟩ = a := by
  rw [List.get_eq_getElem]
  exact List.getElem_concat_length _ _ _ h _

lemma get_bits_loop2_from_empty (f : BitFile) (s : Nat) (hs : s ≤ 7)
    (ho : f.isOpen = true) (hrd : is_readable f = true) (hb : f.ibufCount = 0)
    (hp : f.pos < f.content.length) :
    get_bits_loop2 f 0 (s + 1) =
      .ok (f.content.get ⟨f.pos, hp⟩ / 2 ^ (7 - s) % 2 ^ (s + 1),
        { f with pos := f.pos + 1, ibufCount := 7 - s,
                 ibufValue := f.content.get ⟨f.pos, hp⟩ }) := by
  rw [get_bits_loop2_step]
  have hgb := get_bit_load ho hrd hb hp
  simp only [hgb]
  have hacc : (if f.content.get ⟨f.pos, hp⟩ >>> 7 &&& 1 ≠ 0 then ((0 : Nat) <<< 1) ||| 1
               else (0 : Nat) <<< 1) = f.content.get ⟨f.pos, hp⟩ / 2 ^ 7 % 2 := by
    rw [Nat.shiftRight_eq_div_pow, Nat.and_one_is_mod]
    by_cases h2 : f.content.get ⟨f.pos, hp⟩ / 2 ^ 7 % 2 = 0
    · rw [h2, if_neg (by omega)]
      rfl
    · have h21 : f.content.get ⟨f.pos, hp⟩ / 2 ^ 7 % 2 = 1 := by omega
      rw [h21, if_pos (by omega)]
      rfl
  rw [hacc]
  have hloop2 := get_bits_loop2_spec s
    { f with pos := f.pos + 1, ibufCount := 7, ibufValue := f.content.get ⟨f.pos, hp⟩ }
    (f.content.get ⟨f.pos, hp⟩ / 2 ^ 7 % 2)
    (by simpa using ho) (by simpa [is_readable] using hrd) (by simp; omega) (by simp)
  simp only [hloop2]
  have hval : f.content.get ⟨f.pos, hp⟩ / 2 ^ 7 % 2 * 2 ^ s
        + f.content.get ⟨f.pos, hp⟩ / 2 ^ (7 - s) % 2 ^ s
      = f.content.get ⟨f.pos, hp⟩ / 2 ^ (7 - s) % 2 ^ (s + 1) := by
    rw [Nat.mod_pow_succ, Nat.div_div_eq_div_mul, ← pow_add,
      show 7 - s + s = 7 from by omega]
    ring
  rw [hval]


/-! ### Reading back a value written by put_bits and flush -/


lemma get_bits_loop1_fresh (q : Nat) (D : List Nat) (r : Nat) (hr : r < 8)
    (hq : q ≤ D.length) :
    get_bits_loop1 (fresh_r D) (8 * q + r) [] =
      .ok ((D.take q).reverse, r, mid_r D q) := by
  have h := get_bits_loop1_spec q (fresh_r D) r [] hr rfl rfl rfl
    (by simpa [fresh_r] using hq)
  simpa [fresh_r, mid_r] using h

lemma get_bits_read (v count : Nat) (hv : v < 2 ^ count) :
    ∃ g : BitFile,
      get_bits (fresh_r (specBytes v (count / 8) ++
          (if count % 8 = 0 then ([] : List Nat)
           else [v / 2 ^ (8 * (count / 8)) % 2 ^ (count % 8) * 2 ^ (8 - count % 8)])))
        count = .ok (v, g) := by
  obtain ⟨q, r, hqr, hr⟩ : ∃ q r, count = 8 * q + r ∧ r < 8 :=
    ⟨count / 8, count % 8, by omega, by omega⟩
  subst hqr
  have hq8 : (8 * q + r) / 8 = q := by omega
  have hm8 : (8 * q + r) % 8 = r := by omega
  rw [hq8, hm8]
  have hupow : (256 : Nat) ^ q = 2 ^ (8 * q) := by
    rw [show (256 : Nat) = 2 ^ 8 from by norm_num, ← pow_mul]
  have hulr : v / 2 ^ (8 * q) < 2 ^ r := by
    apply Nat.div_lt_of_lt_mul
    rw [← pow_add]
    exact hv
  set u := v / 2 ^ (8 * q) with hu
  set P := (if r = 0 then ([] : List Nat) else [u % 2 ^ r * 2 ^ (8 - r)]) with hP
  set D := specBytes v q ++ P with hD
  have hlenD : q ≤ D.length := by
    rw [hD, List.length_append, specBytes_length]
    omega
  have hloop1 := get_bits_loop1_fresh q D r hr hlenD
  have htakeD : D.take q = specBytes v q := by
    rw [hD]
    exact List.take_left' (specBytes_length v q)
  rw [htakeD] at hloop1
  simp only [get_bits, show (fresh_r D).isOpen = true from rfl,
    show is_readable (fresh_r D) = true from rfl, Bool.not_true, Bool.false_eq_true,
    if_false, hloop1]
  by_cases hr0 : r = 0
  · subst hr0
    refine ⟨mid_r D q, ?_⟩
    rw [if_neg (show ¬((0 : Nat) ≠ 0) from by omega)]
    rw [foldl_specBytes v q 0, hupow, zero_mul, zero_add,
      Nat.mod_eq_of_lt (by simpa using hv)]
  · obtain ⟨s, rfl⟩ : ∃ s, r = s + 1 := ⟨r - 1, by omega⟩
    have hP1 : P = [u % 2 ^ (s + 1) * 2 ^ (8 - (s + 1))] := by
      rw [hP, if_neg hr0]
    refine ⟨{ mid_r D q with pos := q + 1, ibufCount := 7 - s, ibufValue := u * 2 ^ (7 - s) }, ?_⟩
    rw [if_pos (show (s + 1 : Nat) ≠ 0 from by omega)]
    have hq1 : (mid_r D q).pos < (mid_r D q).content.length := by
      show q < D.length
      rw [hD, hP1, List.length_append, specBytes_length]
      simp
    rw [get_bits_loop2_from_empty (mid_r D q) s (by omega) rfl rfl rfl hq1]
    have hgetp : (mid_r D q).content.get ⟨(mid_r D q).pos, hq1⟩ = u * 2 ^ (7 - s) := by
      show D.get ⟨q, _⟩ = _
      show (specBytes v q ++ [u % 2 ^ (s + 1) * 2 ^ (8 - (s + 1))]).get ⟨q, _⟩ = _
      rw [get_concat_length (specBytes_length v q).symm _, Nat.mod_eq_of_lt hulr,
        show 8 - (s + 1) = 7 - s from by omega]
    rw [hgetp]
    have hdiv2 : u * 2 ^ (7 - s) / 2 ^ (7 - s) = u :=
      Nat.mul_div_cancel _ (by positivity)
    rw [hdiv2, Nat.mod_eq_of_lt hulr]
    have hfin : u * 2 ^ (8 * q) + v % 2 ^ (8 * q) = v := by
      calc u * 2 ^ (8 * q) + v % 2 ^ (8 * q)
          = 2 ^ (8 * q) * (v / 2 ^ (8 * q)) + v % 2 ^ (8 * q) := by rw [hu]; ring
        _ = v := Nat.div_add_mod v (2 ^ (8 * q))
    dsimp only
    rw [List.foldl_cons, Nat.zero_shiftLeft, Nat.zero_add, foldl_specBytes v q u,
      hupow, hfin]
    rfl

/-! ### The write pipeline on a freshly opened output file -/

/-- The isinstance failure path of `put_bits`: a `long` argument raises
`TypeError` before anything is written. -/
lemma put_bits_typeError (f : BitFile) (v : Int) (count : Nat)
    (ho : f.isOpen = true) (hw : is_writable f = true)
    (hm : is_machine_int v = false) :
    put_bits f v count = .error .typeError := by
  simp [put_bits, ho, hw, hm]

lemma put_bits_fresh (v count : Nat) (h63 : v < 2 ^ 63) :
    put_bits fresh_w (v : Int) count =
      .ok (count,
        { isOpen := true, mode := ['w', 'b'], content := specBytes v (count / 8), pos := count / 8, flushCount := 0, ibufCount := 0, ibufValue := 0, obufCount := count % 8, obufValue := v / 2 ^ (8 * (count / 8)) % 2 ^ (count % 8) }) := by
  have h := put_bits_spec fresh_w (v : Int) count (is_machine_int_natCast v h63)
    rfl rfl rfl rfl rfl
  rw [bytesLE_natCast, byteLE_natCast] at h
  have hcol : v / 256 ^ (count / 8) % 256 % 2 ^ (count % 8)
      = v / 2 ^ (8 * (count / 8)) % 2 ^ (count % 8) := by
    rw [show (256 : Nat) ^ (count / 8) = 2 ^ (8 * (count / 8)) from by
          rw [show (256 : Nat) = 2 ^ 8 from by norm_num, ← pow_mul],
      show (256 : Nat) = 2 ^ 8 from by norm_num,
      Nat.mod_mod_of_dvd _ (pow_dvd_pow 2 (by omega))]
  rw [hcol] at h
  simpa [fresh_w] using h

lemma flush_after_put (v count : Nat) (hr0 : count % 8 ≠ 0) :
    flush { isOpen := true, mode := ['w', 'b'], content := specBytes v (count / 8), pos := count / 8, flushCount := 0, ibufCount := 0, ibufValue := 0, obufCount := count % 8, obufValue := v / 2 ^ (8 * (count / 8)) % 2 ^ (count % 8) } false =
      .ok (count % 8,
        { isOpen := true, mode := ['w', 'b'], content := specBytes v (count / 8) ++ [v / 2 ^ (8 * (count / 8)) % 2 ^ (count % 8) * 2 ^ (8 - count % 8)], pos := count / 8 + 1, flushCount := 1, ibufCount := 0, ibufValue := 0, obufCount := 0, obufValue := 0 }) := by
  have h := flush_spec_write
    { isOpen := true, mode := ['w', 'b'], content := specBytes v (count / 8), pos := count / 8, flushCount := 0, ibufCount := 0, ibufValue := 0, obufCount := count % 8, obufValue := v / 2 ^ (8 * (count / 8)) % 2 ^ (count % 8) }
    false rfl rfl hr0 (by show count % 8 < 8; omega)
    (by show count / 8 = (specBytes v (count / 8)).length; rw [specBytes_length])
  simp only [Nat.mod_mod_of_dvd _ (dvd_refl (2 ^ (count % 8)))] at h
  simpa using h

/-- Claim C1 (amended): multi-bit integer round-trip.  For count in
1..64 and value below 2 ^ count that is also a Python 2 machine int
(value ≤ sys.maxint, i.e. value < 2 ^ 63 — a larger value is a long and
put_bits raises TypeError at its isinstance check), writing with
put_bits on a fresh output file, flushing, and reading the resulting
bytes back with get_bits returns the value exactly. -/
theorem C1_amended_machine_round_trip (count value : Nat) (h1 : 1 ≤ count)
    (h64 : count ≤ 64) (hv : value < 2 ^ count) (h63 : value < 2 ^ 63) :
    write_then_read value count = .ok value := by
  obtain ⟨g, hg⟩ := get_bits_read value count hv
  have hput := put_bits_fresh value count h63
  by_cases hr0 : count % 8 = 0
  · have hflush := flush_spec_empty
      { isOpen := true, mode := ['w', 'b'], content := specBytes value (count / 8), pos := count / 8, flushCount := 0, ibufCount := 0, ibufValue := 0, obufCount := count % 8, obufValue := value / 2 ^ (8 * (count / 8)) % 2 ^ (count % 8) }
      false rfl rfl hr0
    rw [if_pos hr0, List.append_nil] at hg
    simp only [write_then_read, open_wb, hput, hflush, open_rb, hg]
  · have hflush := flush_after_put value count hr0
    rw [if_neg hr0] at hg
    simp only [write_then_read, open_wb, hput, hflush, open_rb, hg]

/-! ### Claim theorems -/

/-- Counterexample to claim C2 as stated.  put_bits writes the whole
bytes LEAST-significant byte first: ba.pop() removes the LAST element of
the big-endian bytearray.  Writing value 0x0102 with count 16 on a fresh
output file puts the bytes [0x02, 0x01] on the stream, not the
most-significant-first order [0x01, 0x02] the claim asserts. -/
theorem C2_byte_order_counterexample :
    put_bits fresh_w (0x0102 : Int) 16 =
      .ok (16, { isOpen := true, mode := ['w', 'b'], content := [0x02, 0x01], pos := 2, flushCount := 0, ibufCount := 0, ibufValue := 0, obufCount := 0, obufValue := 0 }) ∧
    [0x02, 0x01] ≠ ([0x01, 0x02] : List Nat) :=
  ⟨rfl, by decide⟩

/-- Claim C2 (amended): put_bits(value, count) on a machine-int value
(value ≤ sys.maxint; a larger value is a Python 2 long and put_bits
raises TypeError at its isinstance check, writing nothing) decomposes
the value into ceil(count/8) bytes of its big-endian expansion
(int_to_bytearray, index 0 the MSB), writes the whole bytes via put_char
by popping from the END of that array — least-significant byte first —
and then writes the remaining count % 8 low-order bits of the leading
(most significant) partial byte via repeated put_bit, most significant
of that group first; from a byte-aligned writable state the stream
therefore receives the low base-256 digits of the value in
least-significant-first order and the output accumulator holds the
count % 8 leading bits. -/
theorem C2_amended_lsb_first (f : BitFile) (v : Nat) (count : Nat)
    (ho : f.isOpen = true) (hw : is_writable f = true)
    (hc : f.obufCount = 0) (hv0 : f.obufValue = 0)
    (hp : f.pos = f.content.length) :
    (v < 2 ^ 63 →
      put_bits f (v : Int) count =
        .ok (count,
          { f with content := f.content ++ specBytes v (count / 8), pos := f.pos + count / 8, obufCount := count % 8, obufValue := v / 2 ^ (8 * (count / 8)) % 2 ^ (count % 8) })) ∧
    (2 ^ 63 ≤ v → put_bits f (v : Int) count = .error .typeError) := by
  constructor
  · intro h63
    have h := put_bits_spec f (v : Int) count (is_machine_int_natCast v h63)
      ho hw hc hv0 hp
    rw [bytesLE_natCast, byteLE_natCast] at h
    have hcol : v / 256 ^ (count / 8) % 256 % 2 ^ (count % 8)
        = v / 2 ^ (8 * (count / 8)) % 2 ^ (count % 8) := by
      rw [show (256 : Nat) ^ (count / 8) = 2 ^ (8 * (count / 8)) from by
            rw [show (256 : Nat) = 2 ^ 8 from by norm_num, ← pow_mul],
        show (256 : Nat) = 2 ^ 8 from by norm_num,
        Nat.mod_mod_of_dvd _ (pow_dvd_pow 2 (by omega))]
    rw [hcol] at h
    exact h
  · intro hbig
    exact put_bits_typeError f (v : Int) count ho hw (is_machine_int_natCast_big v hbig)

/-- Witness for the amended C2 at value 0x0102, count 16, and the long
value 2 ^ 64 raising TypeError. -/
theorem C2_amended_lsb_first_witness :
    fresh_w.isOpen = true ∧ is_writable fresh_w = true ∧ fresh_w.obufCount = 0 ∧
    put_bits fresh_w ((258 : Nat) : Int) 16 =
      .ok (16,
        { fresh_w with content := fresh_w.content ++ specBytes 258 (16 / 8), pos := fresh_w.pos + 16 / 8, obufCount := 16 % 8, obufValue := 258 / 2 ^ (8 * (16 / 8)) % 2 ^ (16 % 8) }) ∧
    put_bits fresh_w (((2 : Nat) ^ 64 : Nat) : Int) 16 = .error .typeError :=
  ⟨rfl, rfl, rfl,
    (C2_amended_lsb_first fresh_w 258 16 rfl rfl rfl rfl rfl).1 (by norm_num),
    (C2_amended_lsb_first fresh_w (2 ^ 64) 16 rfl rfl rfl rfl rfl).2 (by norm_num)⟩


/-- Counterexample to claim C3 as stated.  byte_align returns
_output_buffer[1] — the buffered BYTE VALUE — not the occupancy count
_output_buffer[0], and it performs no resource-level flush.  After
put_bit(0) the occupancy is 1, yet byte_align returns 0, and the
resource-level flush counter stays 0 whereas flush(False) increments it
(and returns 1, the occupancy). -/
theorem C3_byte_align_counterexample :
    put_bit fresh_w 0 = .ok (0, wbit0) ∧
    wbit0.obufCount = 1 ∧
    byte_align wbit0 =
      .ok (0, { wbit0 with content := [0], pos := 1, obufCount := 0, obufValue := 0 }) ∧
    (0 : Nat) ≠ wbit0.obufCount ∧
    flush wbit0 false =
      .ok (1, { wbit0 with content := [0], pos := 1, flushCount := 1, obufCount := 0, obufValue := 0 }) :=
  ⟨rfl, rfl, rfl, by decide, rfl⟩

/-- Claim C3 (amended): on an open stream, byte_align discards the input
accumulator content and resets both accumulators, performs NO
resource-level flush (flushCount is unchanged) and returns the prior
output-accumulator BYTE VALUE (_output_buffer[1]), not the occupancy
count.  When the stream is writable and the output accumulator
non-empty it computes bits = value << (8 - bit_count): if that fits a
byte (as after any sequence of put_bit calls, where value < 2 ^
bit_count) it writes the same zero-padded byte as flush(False) would,
but in reachable states where the stored value is too large (put_char
with a non-empty accumulator stores the full fresh byte, e.g. put_bit(1)
then put_char(0xFF) leaves [1, 0xFF]) chr(bits) raises ValueError and
nothing is written — unlike flush, which masks the byte with 0xFF.
Otherwise (not writable, or empty accumulator) it writes nothing. -/
theorem C3_amended_byte_align (f : BitFile) (ho : f.isOpen = true)
    (hp : f.pos = f.content.length) :
    (is_writable f = true → f.obufCount ≠ 0 →
      f.obufValue * 2 ^ (8 - f.obufCount) ≤ 0xFF →
      byte_align f = .ok (f.obufValue,
        { f with content := f.content ++ [f.obufValue * 2 ^ (8 - f.obufCount)], pos := f.pos + 1, ibufCount := 0, ibufValue := 0, obufCount := 0, obufValue := 0 })) ∧
    (is_writable f = true → f.obufCount ≠ 0 →
      0xFF < f.obufValue * 2 ^ (8 - f.obufCount) →
      byte_align f = .error .valueError) ∧
    (¬(is_writable f = true ∧ f.obufCount ≠ 0) →
      byte_align f = .ok (f.obufValue,
        { f with ibufCount := 0, ibufValue := 0, obufCount := 0, obufValue := 0 })) := by
  refine ⟨?_, ?_, ?_⟩
  · intro hw hc hle
    have hle' : f.obufValue <<< (8 - f.obufCount) ≤ 0xFF := by
      rw [Nat.shiftLeft_eq]
      exact hle
    have hsw := stream_write1_at_end (f := f) (f.obufValue <<< (8 - f.obufCount)) hp
    simp only [byte_align, ho, Bool.not_true, Bool.false_eq_true, if_false,
      if_pos (And.intro hw hc), if_pos hle', hsw]
    rw [Nat.shiftLeft_eq]
  · intro hw hc hgt
    have hgt' : ¬(f.obufValue <<< (8 - f.obufCount) ≤ 0xFF) := by
      rw [Nat.shiftLeft_eq]
      omega
    simp only [byte_align, ho, Bool.not_true, Bool.false_eq_true, if_false,
      if_pos (And.intro hw hc), if_neg hgt']
  · intro hnot
    simp only [byte_align, ho, Bool.not_true, Bool.false_eq_true, if_false,
      if_neg hnot]

/-- Witness for the amended C3: the one-buffered-zero-bit state (the
byte fits and is written) and the reachable state put_bit(1) then
put_char(0xFF) (the stored byte 0xFF shifted by 7 exceeds 255, so chr
raises ValueError). -/
theorem C3_amended_byte_align_witness :
    (put_bit fresh_w 1 >>= fun p => put_char p.2 0xFF) = .ok (0xFF, wbig) ∧
    byte_align wbit0 = .ok (wbit0.obufValue,
      { wbit0 with content := wbit0.content ++ [wbit0.obufValue * 2 ^ (8 - wbit0.obufCount)], pos := wbit0.pos + 1, ibufCount := 0, ibufValue := 0, obufCount := 0, obufValue := 0 }) ∧
    byte_align wbig = .error .valueError :=
  ⟨rfl,
    (C3_amended_byte_align wbit0 rfl rfl).1 rfl (by decide) (by decide),
    (C3_amended_byte_align wbig rfl rfl).2.1 rfl (by decide) (by decide)⟩

/-- Counterexample to claim C5 as stated.  put_bits performs no numeric
validation: put_bits(-1, 8) on an open writable stream raises no
type/range error (the negative value is reduced modulo 256 per byte,
writing 0xFF), and put_bits(5, 0) raises no parameter error for the
non-positive count 0 (it writes nothing and returns 0). -/
theorem C5_validation_counterexample :
    put_bits fresh_w (-1 : Int) 8 =
      .ok (8, { isOpen := true, mode := ['w', 'b'], content := [0xFF], pos := 1, flushCount := 0, ibufCount := 0, ibufValue := 0, obufCount := 0, obufValue := 0 }) ∧
    put_bits fresh_w (5 : Int) 0 = .ok (0, fresh_w) :=
  ⟨rfl, rfl⟩

/-- Claim C5 (amended): put_bits validates only the dynamic type of its
value.  On an open writable byte-aligned stream, for any machine-int
value (negatives included — Python bit operations truncate them modulo
256 per byte) and any count ≥ 0 it raises no error; in particular
count = 0 is accepted, writes nothing, and returns 0.  A value outside
the machine-int range is a Python 2 long, fails the isinstance(bits,
int) test and raises TypeError — the only argument check in the source;
there is no numeric range or count validation. -/
theorem C5_amended_type_check_only (f : BitFile) (v : Int) (count : Nat)
    (ho : f.isOpen = true) (hw : is_writable f = true)
    (hc : f.obufCount = 0) (hv0 : f.obufValue = 0)
    (hp : f.pos = f.content.length) :
    (is_machine_int v = true →
      (∃ f1, put_bits f v count = .ok (count, f1)) ∧
      put_bits f v 0 = .ok (0, f)) ∧
    (is_machine_int v = false → put_bits f v count = .error .typeError) := by
  constructor
  · intro hm
    constructor
    · exact ⟨_, put_bits_spec f v count hm ho hw hc hv0 hp⟩
    · obtain ⟨o, m, ct, p, fl, ic, iv, oc, ov⟩ := f
      simp only at hc hv0
      subst hc
      subst hv0
      have h := put_bits_spec _ v 0 hm ho hw rfl rfl hp
      simpa [bytesLE, Nat.mod_one] using h
  · intro hm
    exact put_bits_typeError f v count ho hw hm

/-- Witness for the amended C5: the negative machine int -1 succeeds at
count 8 and count 0 on a fresh output file, while the long -(2 ^ 100)
raises TypeError. -/
theorem C5_amended_type_check_only_witness :
    ((∃ f1, put_bits fresh_w (-1 : Int) 8 = .ok (8, f1)) ∧
      put_bits fresh_w (-1 : Int) 0 = .ok (0, fresh_w)) ∧
    put_bits fresh_w (-(2 ^ 100) : Int) 8 = .error .typeError :=
  ⟨(C5_amended_type_check_only fresh_w (-1) 8 rfl rfl rfl rfl rfl).1 rfl,
    (C5_amended_type_check_only fresh_w (-(2 ^ 100)) 8 rfl rfl rfl rfl rfl).2
      (by decide)⟩

/-- Counterexample to claim C1 as stated.  Count 64 with value 2 ^ 63
lies inside the claimed domain (1 ≤ 64 ≤ 64 and 2 ^ 63 < 2 ^ 64), but
2 ^ 63 exceeds sys.maxint, so in Python 2 the value is a long and
put_bits raises TypeError at its isinstance(bits, int) check: the
pipeline raises instead of round-tripping the value. -/
theorem C1_round_trip_counterexample :
    1 ≤ 64 ∧ (2 : Nat) ^ 63 < 2 ^ 64 ∧
    write_then_read (2 ^ 63) 64 = .error .typeError :=
  ⟨by norm_num, by norm_num, rfl⟩

/-- Witness for the amended C1 at count = 12, value = 0x111 (the doctest
example of the package). -/
theorem C1_amended_machine_round_trip_witness :
    1 ≤ 12 ∧ 12 ≤ 64 ∧ 273 < 2 ^ 12 ∧ 273 < 2 ^ 63 ∧
    write_then_read 273 12 = .ok 273 :=
  ⟨by norm_num, by norm_num, by norm_num, by norm_num,
    C1_amended_machine_round_trip 12 273 (by norm_num) (by norm_num) (by norm_num)
      (by norm_num)⟩

/-- Claim C4: end-of-stream signalling.  On an open readable stream
whose underlying position is exactly at the end (and, for get_bit, with
no buffered bits left — otherwise the bit stream is not yet exhausted),
get_char and get_bit raise exactly EOFError and no other error kind.
The source raises before mutating any state, and the raw read at end of
file returns the empty marker with the position unchanged (third
conjunct), so the position does not advance. -/
theorem C4_eof_signalling (f : BitFile) (ho : f.isOpen = true)
    (hr : is_readable f = true) (hp : f.pos = f.content.length) :
    get_char f = .error .eofError ∧
    (f.ibufCount = 0 → get_bit f = .error .eofError) ∧
    stream_read1 f = (none, f) :=
  ⟨get_char_eof ho hr (by omega),
   fun hb => get_bit_eof ho hr hb (by omega),
   stream_read1_eof (by omega)⟩

/-- Witness for C4 on a freshly opened empty input file. -/
theorem C4_eof_signalling_witness :
    (fresh_r []).isOpen = true ∧ (fresh_r []).pos = (fresh_r []).content.length ∧
    get_char (fresh_r []) = .error .eofError ∧
    get_bit (fresh_r []) = .error .eofError :=
  ⟨rfl, rfl, (C4_eof_signalling (fresh_r []) rfl rfl rfl).1,
    (C4_eof_signalling (fresh_r []) rfl rfl rfl).2.1 rfl⟩

/-- Claim C6: the flush contract.  On an open writable stream flush is a
no-op returning 0 when the output accumulator is empty; when it holds n
bits (0 < n < 8) it writes exactly one byte with those n bits
left-justified and the remaining 8 - n low-order bits all zero
(ones_fill = false) or all one (ones_fill = true), forces one
resource-level flush, resets the output accumulator, and returns n. -/
theorem C6_flush_contract (f : BitFile) (ones_fill : Bool) (ho : f.isOpen = true)
    (hw : is_writable f = true) (hp : f.pos = f.content.length) :
    (f.obufCount = 0 → flush f ones_fill = .ok (0, f)) ∧
    (0 < f.obufCount → f.obufCount < 8 →
      flush f ones_fill = .ok (f.obufCount,
        { f with content := f.content ++ [f.obufValue % 2 ^ f.obufCount * 2 ^ (8 - f.obufCount) + (if ones_fill then 2 ^ (8 - f.obufCount) - 1 else 0)], pos := f.pos + 1, flushCount := f.flushCount + 1, obufCount := 0, obufValue := 0 })) :=
  ⟨fun hc => flush_spec_empty f ones_fill ho hw hc,
   fun hc hc8 => flush_spec_write f ones_fill ho hw (by omega) hc8 hp⟩

/-- Witness for C6: three buffered bits 0b101 with ones fill give the
byte 0b10111111 = 0xBF (the three bits left-justified, five one bits of
padding). -/
theorem C6_flush_contract_witness :
    0 < (3 : Nat) ∧ (3 : Nat) < 8 ∧
    flush { fresh_w with obufCount := 3, obufValue := 5 } true =
      .ok (3, { fresh_w with content := [0xBF], pos := 1, flushCount := 1, obufCount := 0, obufValue := 0 }) := by
  refine ⟨by norm_num, by norm_num, ?_⟩
  exact (C6_flush_contract { fresh_w with obufCount := 3, obufValue := 5 } true
    rfl rfl rfl).2 (by norm_num) (by norm_num)

/-- Claim C7: the implicit close-time flush uses zero fill.  Opening a
fresh file for writing, calling put_bit(1) once and then close() leaves
exactly the single byte 0x80 on the resource: the written bit in the
most significant position and the seven unused low-order bits zero. -/
theorem C7_close_zero_fill :
    (open_file initial ['w', 'b'] [] >>= fun w =>
      put_bit w 1 >>= fun p =>
        close p.2 >>= fun g => pure g.content) = .ok [0x80] := rfl

/-- Claim C8: the capability invariant.  Every mode string accepted by
open yields a stream that is readable or writable, never neither: the
CPython 2 builtin open only accepts mode strings beginning with one of
r, w, a, U; BitFile.open rejects any mode containing U (or t) first, so
an accepted mode starts with r, w or a, making _is_readable or
_is_writable true. -/
theorem C8_capability_invariant (f : BitFile) (mode : List Char)
    (existing : List Nat) (g : BitFile)
    (h : open_file f mode existing = .ok g) :
    is_readable g = true ∨ is_writable g = true := by
  unfold open_file at h
  by_cases h1 : f.isOpen = true
  · rw [if_pos h1] at h
    exact Except.noConfusion h
  · rw [if_neg h1] at h
    by_cases h2 : (mode.contains 't' || mode.contains 'U') = true
    · rw [if_pos h2] at h
      exact Except.noConfusion h
    · rw [if_neg h2] at h
      simp only [Bool.or_eq_true, not_or, Bool.not_eq_true] at h2
      by_cases hb : mode.contains 'b' = true
      · rw [if_pos hb] at h
        cases mode with
        | nil => simp [python2_open_accepts] at h
        | cons c cs =>
          by_cases h3 : python2_open_accepts (c :: cs) = true
          · have h3d := h3
            simp only [python2_open_accepts, Bool.or_eq_true, decide_eq_true_eq] at h3d
            simp only [h3, if_true] at h
            rcases h3d with ((hc | hc) | hc) | hc
            · left
              subst hc
              injection h with h4
              subst h4
              simp [is_readable, List.contains_cons]
            · right
              subst hc
              injection h with h4
              subst h4
              simp [is_writable, List.contains_cons]
            · right
              subst hc
              injection h with h4
              subst h4
              simp [is_writable, List.contains_cons]
            · subst hc
              simp [List.contains_cons] at h2
          · simp [h3] at h
      · rw [if_neg hb] at h
        cases mode with
        | nil => simp [python2_open_accepts] at h
        | cons c cs =>
          rw [List.cons_append] at h
          by_cases h3 : python2_open_accepts (c :: (cs ++ ['b'])) = true
          · have h3d := h3
            simp only [python2_open_accepts, Bool.or_eq_true, decide_eq_true_eq] at h3d
            simp only [h3, if_true] at h
            rcases h3d with ((hc | hc) | hc) | hc
            · left
              subst hc
              injection h with h4
              subst h4
              simp [is_readable, List.contains_cons]
            · right
              subst hc
              injection h with h4
              subst h4
              simp [is_writable, List.contains_cons]
            · right
              subst hc
              injection h with h4
              subst h4
              simp [is_writable, List.contains_cons]
            · subst hc
              simp [List.contains_cons] at h2
          · simp [h3] at h

/-- Witness for C8: mode "wb" opens successfully and the result is
writable. -/
theorem C8_capability_invariant_witness :
    open_file initial ['w', 'b'] [] = .ok fresh_w ∧
    (is_readable fresh_w = true ∨ is_writable fresh_w = true) :=
  ⟨rfl, C8_capability_invariant initial ['w', 'b'] [] fresh_w rfl⟩

lemma get_char_buffered {f : BitFile} (ho : f.isOpen = true)
    (hr : is_readable f = true) (hb : f.ibufCount ≠ 0) (hp : f.pos < f.content.length) :
    get_char f = .ok
      ((f.content.get ⟨f.pos, hp⟩ >>> f.ibufCount ||| f.ibufValue <<< (8 - f.ibufCount)) &&& 255,
       { f with pos := f.pos + 1, ibufValue := f.content.get ⟨f.pos, hp⟩ &&& 255 }) := by
  have h1 := stream_read1_lt hp
  simp [get_char, ho, hr, hb, h1]

/-- Claim C9: get_char with a non-empty input accumulator.  When the
accumulator holds n > 0 unconsumed bits (its low n bits), get_char reads
one fresh byte b from the resource and returns the byte whose high n
bits are those unconsumed bits (MSB first) followed by the high 8 - n
bits of b, i.e. (w % 2 ^ n) * 2 ^ (8 - n) + b / 2 ^ n; afterwards the
accumulator occupancy is unchanged (the record does not touch ibufCount,
restated by the second conjunct) and only the stored byte value changes,
to the fresh byte. -/
theorem C9_get_char_buffered (f : BitFile) (ho : f.isOpen = true)
    (hr : is_readable f = true) (hn : f.ibufCount ≠ 0) (hn8 : f.ibufCount ≤ 8)
    (hwv : f.ibufValue < 256) (hp : f.pos < f.content.length)
    (hbb : f.content.get ⟨f.pos, hp⟩ < 256) :
    get_char f = .ok (
      f.ibufValue % 2 ^ f.ibufCount * 2 ^ (8 - f.ibufCount)
        + f.content.get ⟨f.pos, hp⟩ / 2 ^ f.ibufCount,
      { f with pos := f.pos + 1, ibufValue := f.content.get ⟨f.pos, hp⟩ }) ∧
    ({ f with pos := f.pos + 1, ibufValue := f.content.get ⟨f.pos, hp⟩ } : BitFile).ibufCount = f.ibufCount := by
  refine ⟨?_, rfl⟩
  have h := get_char_buffered ho hr hn hp
  set b := f.content.get ⟨f.pos, hp⟩ with hbdef
  set n := f.ibufCount with hndef
  set w := f.ibufValue with hwdef
  have h256 : (256 : Nat) = 2 ^ n * 2 ^ (8 - n) := by
    rw [← pow_add, show n + (8 - n) = 8 from by omega]
    norm_num
  have hbd : b / 2 ^ n < 2 ^ (8 - n) := by
    apply Nat.div_lt_of_lt_mul
    rw [← h256]
    exact hbb
  have hor : b >>> n ||| w <<< (8 - n) = 2 ^ (8 - n) * w + b / 2 ^ n := by
    rw [Nat.shiftRight_eq_div_pow, Nat.shiftLeft_eq, Nat.lor_comm,
      show w * 2 ^ (8 - n) = 2 ^ (8 - n) * w from by ring]
    exact or_two_pow_mul_add hbd w
  have hmod : (2 ^ (8 - n) * w + b / 2 ^ n) &&& 255
      = w % 2 ^ n * 2 ^ (8 - n) + b / 2 ^ n := by
    rw [and255, Nat.add_mod, Nat.mod_eq_of_lt (lt_of_lt_of_le hbd (by
      rw [h256]
      exact Nat.le_mul_of_pos_left _ (Nat.pos_pow_of_pos _ (by norm_num))))]
    rw [show (2 ^ (8 - n) * w) % 256 = 2 ^ (8 - n) * (w % 2 ^ n) from by
      rw [h256, show (2 : Nat) ^ n * 2 ^ (8 - n) = 2 ^ (8 - n) * 2 ^ n from by ring,
        Nat.mul_mod_mul_left]]
    have hsum : 2 ^ (8 - n) * (w % 2 ^ n) + b / 2 ^ n < 256 := by
      have hw1 : w % 2 ^ n < 2 ^ n := Nat.mod_lt _ (Nat.pos_pow_of_pos _ (by norm_num))
      calc 2 ^ (8 - n) * (w % 2 ^ n) + b / 2 ^ n
          ≤ 2 ^ (8 - n) * (2 ^ n - 1) + b / 2 ^ n := by
            have := Nat.mul_le_mul_left (2 ^ (8 - n)) (by omega : w % 2 ^ n ≤ 2 ^ n - 1)
            omega
        _ < 2 ^ (8 - n) * (2 ^ n - 1) + 2 ^ (8 - n) := by omega
        _ = 2 ^ (8 - n) * (2 ^ n - 1 + 1) := by ring
        _ = 2 ^ (8 - n) * 2 ^ n := by
            rw [Nat.sub_add_cancel (Nat.pos_pow_of_pos _ (by norm_num))]
        _ = 256 := by rw [h256]; ring
    rw [Nat.mod_eq_of_lt hsum]
    ring
  rw [h, hor, hmod, and255, Nat.mod_eq_of_lt hbb]


/-- Witness for C9 on the AB CD example: 171 % 128 * 2 + 205 / 128 = 87. -/
theorem C9_get_char_buffered_witness :
    rd_mid.ibufCount = 7 ∧
    get_char rd_mid = .ok (87, { rd_mid with pos := 2, ibufValue := 0xCD }) := by
  refine ⟨rfl, ?_⟩
  exact (C9_get_char_buffered rd_mid rfl rfl (by decide) (by decide) (by decide)
    (by decide) (by decide)).1

/-- Claim C10: put_char accepts arbitrary integers, not only characters,
silently reducing them modulo 256: the byte written or buffered is
c & 0xFF (Euclidean remainder, so negative integers are accepted too)
and that byte is returned; no range error is raised for integers outside
0..255.  In particular put_char(321) behaves exactly as put_char(65). -/
theorem C10_put_char_mod_256 (f : BitFile) (c : Int) (ho : f.isOpen = true)
    (hw : is_writable f = true) (hp : f.pos = f.content.length) :
    (f.obufCount = 0 →
      put_char f c = .ok ((c % 256).toNat,
        { f with content := f.content ++ [(c % 256).toNat], pos := f.pos + 1 })) ∧
    (f.obufCount ≠ 0 →
      ∃ f1, put_char f c = .ok ((c % 256).toNat, f1) ∧
        f1.obufValue = (c % 256).toNat ∧ f1.obufCount = f.obufCount) ∧
    put_char f 321 = put_char f 65 := by
  refine ⟨fun hb => put_char_at_end c ho hw hb hp, fun hb => ?_, ?_⟩
  · simp only [put_char, ho, hw, hb, Bool.not_true, Bool.false_eq_true, if_false,
      if_neg hb]
    exact ⟨_, rfl, rfl, rfl⟩
  · have h65 : ((321 : Int) % 256).toNat = ((65 : Int) % 256).toNat := by decide
    simp only [put_char, h65]

/-- Witness for C10 at the fresh output file with c = 321. -/
theorem C10_put_char_mod_256_witness :
    fresh_w.obufCount = 0 ∧
    put_char fresh_w 321 = .ok (65, { fresh_w with content := [65], pos := 1 }) ∧
    put_char fresh_w 321 = put_char fresh_w 65 := by
  refine ⟨rfl, ?_, (C10_put_char_mod_256 fresh_w 321 rfl rfl rfl).2.2⟩
  exact (C10_put_char_mod_256 fresh_w 321 rfl rfl rfl).1 rfl

end Bitfile
